import Mathlib

/-!
Verification of the `filehashcache` repository's filesystem cache engine
(`src/filehashcache/engines/files.py`, class `FileHashCache`).

Strings are modelled as `List Char`, byte strings as `List Nat`, filesystem
paths as lists of path components (`List (List Char)`), relative to the cache
root.  The path mapper (`_encode_filepath` / `_decode_filepath`) is embedded
at the string level; the engine operations (`__setitem__`, `__getitem__`,
`__contains__`, `__delitem__`, `clear`, `_keys`) are embedded over an explicit
filesystem state holding the set of regular files (with contents) and the set
of non-root directories under the cache root.
-/

namespace FileHashCache

/-- A character string (Python `str`), modelled as a list of characters. -/
abbrev Str := List Char

/-- A filesystem path relative to the cache root, as a list of components.
The root itself is `[]`. -/
abbrev FPath := List Str

/-- A byte string (Python `bytes`). -/
abbrev Bytes := List Nat

/-- The segmenting comprehension of `_encode_filepath`:
`[s[i:i+255] for i in range(0, len(s), 255)]`.  The indices
`0, 255, 510, ...` below `len(s)` are `255 * i` for
`i < ceil (len(s) / 255) = (len(s) + 254) / 255`. -/
def chunk255 (s : Str) : List Str :=
  (List.range ((s.length + 254) / 255)).map (fun i => (s.drop (255 * i)).take 255)

/-- `_encode_filepath` of `files.py` at the string level:
`os.path.join(self.path, f'{key[:2]}/{segmented_key}')`, i.e.
`root + '/' + key[:2] + '/' + '/'.join(chunks of key[2:])`. -/
def encode_filepath (root digest : Str) : Str :=
  root ++ '/' :: (digest.take 2 ++ '/' :: List.intercalate (['/']) (chunk255 (digest.drop 2)))

/-- `_decode_filepath` of `files.py`: `os.path.relpath(filepath, self.path)`
followed by `.replace('/','')`.  For a path lying under `root` (every path the
engine passes in), `relpath` is the suffix after `root + '/'`; the byte/str
round trip (`.encode()`) is the identity on the character list model. -/
def decode_filepath (root fp : Str) : Str :=
  (fp.drop (root.length + 1)).filter (fun a => decide (a ≠ '/'))

/-- The first path component of a relative path string: characters before the
first separator. -/
def firstComponent (s : Str) : Str :=
  s.takeWhile (fun a => decide (a ≠ '/'))

/-- The components of a digest's cache path below the root: the 2-character
shard, then the ≤255-character segments of the remainder. -/
def comps (digest : Str) : FPath :=
  digest.take 2 :: chunk255 (digest.drop 2)

/-- `a` is an ancestor-or-self of `q` in the directory tree (component-wise). -/
def leadsTo (a q : FPath) : Prop := ∃ t, q = a ++ t

/-- `q` lies strictly inside the subtree of directory `a`. -/
def strictIn (a q : FPath) : Prop := ∃ t, t ≠ [] ∧ q = a ++ t

instance (a q : FPath) : Decidable (leadsTo a q) :=
  decidable_of_iff (a = q.take a.length) (by
    constructor
    · intro h
      exact ⟨q.drop a.length, by conv_lhs => rw [← List.take_append_drop a.length q, ← h]⟩
    · rintro ⟨t, rfl⟩
      simp)

instance (a q : FPath) : Decidable (strictIn a q) :=
  decidable_of_iff (leadsTo a q ∧ a ≠ q) (by
    constructor
    · rintro ⟨⟨t, rfl⟩, hne⟩
      refine ⟨t, ?_, rfl⟩
      rintro rfl
      simp at hne
    · rintro ⟨t, ht, rfl⟩
      exact ⟨⟨t, rfl⟩, fun h => ht (by simpa using h)⟩)

/-- The error outcomes of the engine operations.  `notFound` is Python's
`KeyError`; `isADirectory` is the `IsADirectoryError` raised by `open`/
`os.remove` on a directory; `notADirectory` and `dirMissing` are the
`NotADirectoryError` / `FileNotFoundError` raised by `os.listdir`;
`decodeFailed` is a failure raised by the value codec's decode. -/
inductive Err where
  | notFound
  | isADirectory
  | notADirectory
  | dirMissing
  | decodeFailed
deriving DecidableEq

/-- The filesystem state under the cache root: the regular files (cache-path
components paired with byte contents) and the non-root directories.  The root
directory itself always exists and is not listed in `dirs`. -/
structure FS where
  files : List (FPath × Bytes)
  dirs : List FPath
deriving DecidableEq

/-- The paths of the regular files under the root. -/
def filePaths (fs : FS) : List FPath := fs.files.map Prod.fst

/-- `os.path.exists`: true for the root, any regular file, any directory. -/
def existsPath (fs : FS) (p : FPath) : Bool :=
  decide (p = [] ∨ p ∈ filePaths fs ∨ p ∈ fs.dirs)

/-- Reading the full content of the regular file at `p`, if one exists. -/
def lookupFile (fs : FS) (p : FPath) : Option Bytes :=
  (fs.files.find? (fun e => decide (e.1 = p))).map Prod.snd

/-- The entries (files or directories) directly inside directory `d`, as
paths.  `os.listdir` returns their names; only membership and emptiness of
the listing are ever used. -/
def childrenOf (fs : FS) (d : FPath) : List FPath :=
  (filePaths fs ++ fs.dirs).filter (fun q => decide (q ≠ [] ∧ q.dropLast = d))

/-- `os.listdir d`: the entries of `d` if `d` is a directory, otherwise
`NotADirectoryError` (a file at `d`) or `FileNotFoundError` (nothing at `d`). -/
def listdir (fs : FS) (d : FPath) : Except Err (List FPath) :=
  if d = [] ∨ d ∈ fs.dirs then .ok (childrenOf fs d)
  else if d ∈ filePaths fs then .error .notADirectory
  else .error .dirMissing

/-- `os.rmdir d` at the point the pruning loop calls it: `d` was just listed
empty, so the removal succeeds; remove `d` from the directories. -/
def rmdirFS (fs : FS) (d : FPath) : FS :=
  FS.mk fs.files (fs.dirs.filter (fun x => decide (x ≠ d)))

/-- The `while dir_path != self.path` pruning loop of `__delitem__`, walking
from the current directory up through its parents (`os.path.dirname`).  The
walk visits `d`, `d.dropLast`, `d.dropLast.dropLast`, ..., so it is structural
recursion on the reversed component list: `pruneUp fs rd` processes the
directory `rd.reverse`. -/
def pruneUp : FS → List Str → Except Err FS
  | fs, [] => .ok fs
  | fs, x :: rest =>
    match listdir fs ((x :: rest).reverse) with
    | .error e => .error e
    | .ok l =>
      if l = [] then pruneUp (rmdirFS fs ((x :: rest).reverse)) rest
      else .ok fs

/-- The pruning phase of `__delitem__` started at directory `d`:
`while dir_path != self.path: if not os.listdir(dir_path): os.rmdir(dir_path);
dir_path = os.path.dirname(dir_path) else: break`. -/
def prune (fs : FS) (d : FPath) : Except Err FS :=
  pruneUp fs d.reverse

/-- `__delitem__`: raise `KeyError` unless `os.path.exists(filepath)`;
`os.remove(filepath)` (raising `IsADirectoryError` if a directory, not a
file, sits there); then prune empty parent directories upward. -/
def delItem (fs : FS) (digest : Str) : Except Err FS :=
  let p := comps digest
  if existsPath fs p then
    match lookupFile fs p with
    | some _ =>
        prune (FS.mk (fs.files.filter (fun e => decide (e.1 ≠ p))) fs.dirs) p.dropLast
    | none => .error .isADirectory
  else .error .notFound

/-- The non-root ancestor directories of a path (all its nonempty proper
initial segments, including `p.dropLast` itself when nonempty). -/
def ancestorDirs (p : FPath) : List FPath :=
  (List.range p.dropLast.length).map (fun k => p.take (k + 1))

/-- `__setitem__`: `os.makedirs(os.path.dirname(filepath), exist_ok=True)`
(create every missing ancestor directory of the cache path), then write the
encoded value as the full content of the file at the cache path. -/
def setItem (fs : FS) (digest : Str) (v : Bytes) : FS :=
  let p := comps digest
  FS.mk ((p, v) :: fs.files.filter (fun e => decide (e.1 ≠ p)))
    (fs.dirs ++ (ancestorDirs p).filter (fun a => decide (a ∉ fs.dirs)))

/-- `__getitem__` for a value codec `decV`: raise `KeyError` unless
`os.path.exists(filepath)`; `open(filepath, 'rb')` (raising
`IsADirectoryError` when a directory sits at the path); read the full
content and return the codec's decode of it, letting a decode failure
surface as `decodeFailed`. -/
def getItem {Val : Type} (decV : Bytes → Except Unit Val) (fs : FS) (digest : Str) :
    Except Err Val :=
  let p := comps digest
  if existsPath fs p then
    match lookupFile fs p with
    | some bs =>
      match decV bs with
      | .ok v => .ok v
      | .error _ => .error .decodeFailed
    | none => .error .isADirectory
  else .error .notFound

/-- `__contains__`: `os.path.exists(self._encode_filepath(key))`. -/
def containsKey (fs : FS) (digest : Str) : Bool :=
  existsPath fs (comps digest)

/-- `clear`: `shutil.rmtree(self.path, ignore_errors=True)` then
`os.makedirs(self.path, exist_ok=True)` — the whole subtree is removed
(best-effort, errors ignored) and an empty root is recreated. -/
def clearFS (_fs : FS) : FS := FS.mk [] []

/-- The empty cache tree: just the root directory. -/
def initFS : FS := FS.mk [] []

/-- Modelled from the spec: `size()` — the base class's length operation is
not under `src/`; per the spec it is the total count of regular files under
the root. -/
def sizeFS (fs : FS) : Nat := (filePaths fs).length

/-- `_keys`: `os.walk` visits every regular file under the root and yields
`_decode_filepath` of its path, which (relative path with separators
removed) is the concatenation of the path's components. -/
def iterKeys (fs : FS) : List Str := (filePaths fs).map (fun p => p.flatten)

/-- A mutating engine operation: a `set` with a digest and encoded value, or
a `delete` with a digest. -/
inductive Op where
  | set : Str → Bytes → Op
  | del : Str → Op

/-- Apply one operation to the tree; a failing delete raises and leaves the
tree unchanged. -/
def applyOp (fs : FS) : Op → FS
  | .set d v => setItem fs d v
  | .del d =>
    match delItem fs d with
    | .ok fs' => fs'
    | .error _ => fs

/-- Run a sequence of set/delete operations. -/
def runOps (fs : FS) (ops : List Op) : FS := ops.foldl applyOp fs

/-- Every directory on any live cache path exists: each nonempty proper
initial segment of a file path is a directory (spec §3, Directory Tree
invariant). -/
def Hanc (fs : FS) : Prop :=
  ∀ q ∈ filePaths fs, ∀ k < q.length, 0 < k → q.take k ∈ fs.dirs

/-- Directory `d` holds at least one entry (regular file) somewhere in its
subtree. -/
def HasEntry (fs : FS) (d : FPath) : Prop :=
  ∃ q ∈ filePaths fs, strictIn d q

instance (fs : FS) : Decidable (Hanc fs) :=
  decidable_of_iff (∀ q ∈ filePaths fs, ∀ k < q.length, 0 < k → q.take k ∈ fs.dirs)
    Iff.rfl

instance (fs : FS) (d : FPath) : Decidable (HasEntry fs d) :=
  decidable_of_iff (∃ q ∈ filePaths fs, strictIn d q) Iff.rfl

theorem chunk255_nil : chunk255 [] = [] := rfl

theorem chunk255_cons (s : Str) (h : s ≠ []) :
    chunk255 s = s.take 255 :: chunk255 (s.drop 255) := by
  have h1 : 1 ≤ s.length := List.length_pos.mpr h
  have harith : (s.length + 254) / 255 = ((s.drop 255).length + 254) / 255 + 1 := by
    rw [List.length_drop]
    omega
  rw [chunk255, harith, List.range_succ_eq_map, List.map_cons, List.map_map]
  refine congrArg₂ _ (by simp) ?_
  rw [chunk255]
  refine List.map_congr_left ?_
  intro i _
  simp only [Function.comp_apply, List.drop_drop]
  have h2 : 255 * Nat.succ i = 255 + 255 * i := by omega
  rw [h2]

theorem chunk255_flatten_aux : ∀ n (s : Str), s.length ≤ n → (chunk255 s).flatten = s := by
  intro n
  induction n with
  | zero =>
    intro s h
    have hs : s = [] := List.eq_nil_of_length_eq_zero (Nat.le_zero.mp h)
    simp [hs, chunk255_nil]
  | succ n ih =>
    intro s h
    by_cases hs : s = []
    · simp [hs, chunk255_nil]
    · rw [chunk255_cons s hs, List.flatten_cons, ih (s.drop 255) ?_, List.take_append_drop]
      have := List.length_pos.mpr hs
      rw [List.length_drop]
      omega

/-- The segments of `_encode_filepath` concatenate back, in order, to the
segmented string: the partition is order-preserving and lossless. -/
theorem chunk255_flatten (s : Str) : (chunk255 s).flatten = s :=
  chunk255_flatten_aux s.length s le_rfl

theorem chunk255_mem_aux :
    ∀ n (s : Str), s.length ≤ n →
      ∀ c ∈ chunk255 s, c ≠ [] ∧ c.length ≤ 255 ∧ ∀ a ∈ c, a ∈ s := by
  intro n
  induction n with
  | zero =>
    intro s h
    have hs : s = [] := List.eq_nil_of_length_eq_zero (Nat.le_zero.mp h)
    simp [hs, chunk255_nil]
  | succ n ih =>
    intro s h c hc
    by_cases hs : s = []
    · rw [hs, chunk255_nil] at hc
      exact absurd hc (List.not_mem_nil c)
    · rw [chunk255_cons s hs] at hc
      rcases List.mem_cons.mp hc with hc | hc
      · subst hc
        refine ⟨?_, ?_, fun a ha => List.mem_of_mem_take ha⟩
        · rw [Ne, List.take_eq_nil_iff]
          simp [hs]
        · rw [List.length_take]
          exact min_le_left _ _
      · have hlen : (s.drop 255).length ≤ n := by
          have := List.length_pos.mpr hs
          rw [List.length_drop]
          omega
        obtain ⟨h1, h2, h3⟩ := ih (s.drop 255) hlen c hc
        exact ⟨h1, h2, fun a ha => List.mem_of_mem_drop (h3 a ha)⟩

/-- Each segment produced by `_encode_filepath` is nonempty and at most 255
characters long, and draws its characters from the segmented string. -/
theorem chunk255_mem (s : Str) :
    ∀ c ∈ chunk255 s, c ≠ [] ∧ c.length ≤ 255 ∧ ∀ a ∈ c, a ∈ s :=
  chunk255_mem_aux s.length s le_rfl

/-- The number of segments is determined by the length of the segmented
string alone. -/
theorem chunk255_length (s : Str) : (chunk255 s).length = (s.length + 254) / 255 := by
  simp [chunk255]

/-- Concatenating the components of a digest's cache path reproduces the
digest. -/
theorem comps_flatten (digest : Str) : (comps digest).flatten = digest := by
  rw [comps, List.flatten_cons, chunk255_flatten, List.take_append_drop]

/-- The cache-path components map is injective. -/
theorem comps_injective {d1 d2 : Str} (h : comps d1 = comps d2) : d1 = d2 := by
  rw [← comps_flatten d1, ← comps_flatten d2, h]

theorem filter_noSlash_eq_self {s : Str} (h : ∀ a ∈ s, a ≠ '/') :
    s.filter (fun a => decide (a ≠ '/')) = s := by
  rw [List.filter_eq_self]
  intro a ha
  simpa using h a ha

theorem filter_noSlash_intercalate :
    ∀ xs : List Str, (∀ c ∈ xs, ∀ a ∈ c, a ≠ '/') →
      (List.intercalate (['/']) xs).filter (fun a => decide (a ≠ '/')) = xs.flatten := by
  intro xs
  induction xs with
  | nil => intro _; rfl
  | cons x t ih =>
    intro h
    cases t with
    | nil =>
      rw [List.intercalate, List.intersperse_singleton]
      simp only [List.flatten_cons, List.flatten_nil, List.append_nil]
      exact filter_noSlash_eq_self (h x (List.mem_cons_self x []))
    | cons y t2 =>
      have hx : ∀ a ∈ x, a ≠ '/' := h x (List.mem_cons_self x _)
      have ht : ∀ c ∈ y :: t2, ∀ a ∈ c, a ≠ '/' := fun c hc => h c (List.mem_cons_of_mem x hc)
      have hrw : List.intercalate (['/']) (x :: y :: t2)
          = x ++ '/' :: List.intercalate (['/']) (y :: t2) := by
        rw [List.intercalate, List.intercalate, List.intersperse_cons_cons, List.flatten_cons,
          List.flatten_cons]
        rfl
      rw [hrw, List.filter_append, filter_noSlash_eq_self hx, List.flatten_cons]
      congr 1
      rw [List.filter_cons, if_neg (by simp)]
      exact ih ht


theorem drop_after_root (root rest : Str) :
    (root ++ '/' :: rest).drop (root.length + 1) = rest := by
  have h1 : root ++ '/' :: rest = (root ++ ['/']) ++ rest := by simp
  have h2 : root.length + 1 = (root ++ ['/']).length := by simp
  rw [h1, h2, List.drop_left]

theorem chunk255_noSlash {digest : Str} (hs : '/' ∉ digest) :
    ∀ c ∈ chunk255 (digest.drop 2), ∀ a ∈ c, a ≠ '/' := by
  intro c hc a ha
  rintro rfl
  exact hs (List.mem_of_mem_drop ((chunk255_mem _ c hc).2.2 _ ha))

/-- C1: decoding inverts encoding.  The digest's characters come from the key
encoder's fixed hash alphabet, which excludes the path separator: that is the
`'/' ∉ digest` hypothesis. -/
theorem c1_decode_encode (root digest : Str) (_h2 : 2 ≤ digest.length)
    (hs : '/' ∉ digest) :
    decode_filepath root (encode_filepath root digest) = digest := by
  rw [encode_filepath, decode_filepath, drop_after_root, List.filter_append,
    filter_noSlash_eq_self (fun a ha h => hs (h ▸ List.mem_of_mem_take ha)),
    List.filter_cons, if_neg (by simp),
    filter_noSlash_intercalate _ (chunk255_noSlash hs), chunk255_flatten,
    List.take_append_drop]

/-- Witness for C1 at a synthetic 600-character digest, long enough to force
multiple path segments. -/
theorem c1_decode_encode_witness :
    2 ≤ (List.replicate 600 'a').length ∧ '/' ∉ List.replicate 600 'a' ∧
      decode_filepath (['r']) (encode_filepath (['r']) (List.replicate 600 'a'))
        = List.replicate 600 'a' :=
  ⟨by rw [List.length_replicate]; omega,
    by rw [List.mem_replicate]; rintro ⟨-, h⟩; exact absurd h (by decide),
    c1_decode_encode _ _ (by rw [List.length_replicate]; omega)
      (by rw [List.mem_replicate]; rintro ⟨-, h⟩; exact absurd h (by decide))⟩

theorem takeWhile_append_of_all {p : Char → Bool} (l1 l2 : Str)
    (h : ∀ a ∈ l1, p a = true) :
    (l1 ++ l2).takeWhile p = l1 ++ l2.takeWhile p := by
  induction l1 with
  | nil => simp
  | cons x t ih =>
    rw [List.cons_append, List.takeWhile_cons, h x (List.mem_cons_self x t)]
    rw [List.cons_append, ih (fun a ha => h a (List.mem_cons_of_mem x ha))]
    simp

theorem chunk255_len_598 (r : Str) (h : r.length = 598) :
    (chunk255 r).map List.length = [255, 255, 88] := by
  have h0 : r ≠ [] := by intro e; rw [e] at h; simp at h
  have l1 : (r.drop 255).length = 343 := by rw [List.length_drop]; omega
  have h1 : r.drop 255 ≠ [] := by intro e; rw [e] at l1; simp at l1
  have l2 : ((r.drop 255).drop 255).length = 88 := by rw [List.length_drop]; omega
  have h2 : (r.drop 255).drop 255 ≠ [] := by intro e; rw [e] at l2; simp at l2
  have l3 : ((r.drop 255).drop 255).drop 255 = [] := by
    apply List.eq_nil_of_length_eq_zero
    rw [List.length_drop]
    omega
  rw [chunk255_cons r h0, chunk255_cons _ h1, chunk255_cons _ h2, l3, chunk255_nil]
  simp only [List.map_cons, List.map_nil, List.length_take, h, l1, l2]
  decide

/-- C2: path encoding is a total function of the digest; under the root the
first component is the 2-character shard, the remainder is partitioned in
order into consecutive nonempty chunks of at most 255 characters (zero chunks
when the remainder is empty), shard and chunks concatenate back to the
digest, and a 600-character digest produces segments of lengths
255, 255, 88. -/
theorem c2_encode_partition (root digest : Str) (_h2 : 2 ≤ digest.length)
    (hs : '/' ∉ digest) :
    (∀ c ∈ chunk255 (digest.drop 2), c ≠ [] ∧ c.length ≤ 255)
  ∧ (chunk255 (digest.drop 2)).flatten = digest.drop 2
  ∧ (digest.length = 2 → chunk255 (digest.drop 2) = [])
  ∧ digest.take 2 ++ (chunk255 (digest.drop 2)).flatten = digest
  ∧ firstComponent ((encode_filepath root digest).drop (root.length + 1))
      = digest.take 2
  ∧ (digest.length = 600 →
      (chunk255 (digest.drop 2)).map List.length = [255, 255, 88]) := by
  refine ⟨fun c hc => ⟨(chunk255_mem _ c hc).1, (chunk255_mem _ c hc).2.1⟩,
    chunk255_flatten _, ?_, ?_, ?_, ?_⟩
  · intro hlen
    have hnil : digest.drop 2 = [] := by
      apply List.eq_nil_of_length_eq_zero
      rw [List.length_drop, hlen]
    rw [hnil, chunk255_nil]
  · rw [chunk255_flatten, List.take_append_drop]
  · have htk : ∀ a ∈ digest.take 2, a ≠ '/' :=
      fun a ha h => hs (h ▸ List.mem_of_mem_take ha)
    rw [encode_filepath, drop_after_root, firstComponent,
      takeWhile_append_of_all _ _ (fun a ha => by simpa using htk a ha),
      List.takeWhile_cons, if_neg (by simp)]
    simp
  · intro hlen
    apply chunk255_len_598
    rw [List.length_drop, hlen]

/-- Witness for C2 at a synthetic 600-character digest. -/
theorem c2_encode_partition_witness :
    2 ≤ (List.replicate 600 'b').length ∧ '/' ∉ List.replicate 600 'b' ∧
      ((List.replicate 600 'b').take 2
          ++ (chunk255 ((List.replicate 600 'b').drop 2)).flatten
        = List.replicate 600 'b'
      ∧ (chunk255 ((List.replicate 600 'b').drop 2)).map List.length
        = [255, 255, 88]) := by
  have hlen : 2 ≤ (List.replicate 600 'b').length := by rw [List.length_replicate]; omega
  have hmem : '/' ∉ List.replicate 600 'b' := by
    rw [List.mem_replicate]
    rintro ⟨-, h⟩
    exact absurd h (by decide)
  refine ⟨hlen, hmem, ?_, ?_⟩
  · exact (c2_encode_partition ['r'] _ hlen hmem).2.2.2.1
  · exact (c2_encode_partition ['r'] _ hlen hmem).2.2.2.2.2
      (by rw [List.length_replicate])

theorem leadsTo_length {a q : FPath} (h : leadsTo a q) : a.length ≤ q.length := by
  obtain ⟨t, rfl⟩ := h
  simp

theorem leadsTo_eq_of_length {a q : FPath} (h : leadsTo a q)
    (hl : a.length = q.length) : a = q := by
  obtain ⟨t, rfl⟩ := h
  have ht : t.length = 0 := by
    rw [List.length_append] at hl
    omega
  rw [List.eq_nil_of_length_eq_zero ht, List.append_nil]

theorem comps_length_eq {d1 d2 : Str} (hlen : d1.length = d2.length) :
    (comps d1).length = (comps d2).length := by
  simp [comps, chunk255_length, hlen]

/-- C10 (implicit): on digests of one common length, the path mapping is
injective and component-wise prefix-free — two distinct equal-length digests
yield distinct cache paths, and neither path is an ancestor of the other, so
no aliasing between a file and another file or directory can occur. -/
theorem c10_no_alias (d1 d2 : Str) (hne : d1 ≠ d2) (hlen : d1.length = d2.length)
    (_h2 : 2 ≤ d1.length) :
    comps d1 ≠ comps d2
  ∧ ¬ leadsTo (comps d1) (comps d2) ∧ ¬ leadsTo (comps d2) (comps d1) := by
  have hcne : comps d1 ≠ comps d2 := fun h => hne (comps_injective h)
  refine ⟨hcne, fun h => ?_, fun h => ?_⟩
  · exact hcne (leadsTo_eq_of_length h (comps_length_eq hlen))
  · exact hcne (leadsTo_eq_of_length h (comps_length_eq hlen.symm)).symm

/-- Witness for C10 at the equal-length digests abc and abd. -/
theorem c10_no_alias_witness :
    (['a','b','c'] : Str) ≠ ['a','b','d']
  ∧ (['a','b','c'] : Str).length = (['a','b','d'] : Str).length
  ∧ 2 ≤ (['a','b','c'] : Str).length
  ∧ (comps ['a','b','c'] ≠ comps ['a','b','d']
      ∧ ¬ leadsTo (comps ['a','b','c']) (comps ['a','b','d'])
      ∧ ¬ leadsTo (comps ['a','b','d']) (comps ['a','b','c'])) :=
  ⟨by decide, by decide, by decide,
    c10_no_alias _ _ (by decide) (by decide) (by decide)⟩

theorem comps_ne_nil (digest : Str) : comps digest ≠ [] := by
  rw [comps]
  exact List.cons_ne_nil _ _

theorem existsPath_iff (fs : FS) (p : FPath) :
    existsPath fs p = true ↔ (p = [] ∨ p ∈ filePaths fs ∨ p ∈ fs.dirs) := by
  rw [existsPath]
  exact decide_eq_true_iff

theorem existsPath_eq_false (fs : FS) (p : FPath)
    (h0 : p ≠ []) (h1 : p ∉ filePaths fs) (h2 : p ∉ fs.dirs) :
    existsPath fs p = false := by
  rw [existsPath, decide_eq_false_iff_not]
  rintro (h | h | h)
  · exact h0 h
  · exact h1 h
  · exact h2 h

theorem lookupFile_eq_none (fs : FS) (p : FPath) :
    lookupFile fs p = none ↔ p ∉ filePaths fs := by
  rw [lookupFile, Option.map_eq_none', List.find?_eq_none]
  constructor
  · intro h hp
    obtain ⟨e, he, hfst⟩ := List.mem_map.mp hp
    exact absurd (by simpa using hfst) (by simpa using h e he)
  · intro h e he
    simp only [decide_eq_true_eq]
    intro hfst
    exact h (List.mem_map.mpr ⟨e, he, hfst⟩)

theorem lookupFile_some_mem {fs : FS} {p : FPath} {bs : Bytes}
    (h : lookupFile fs p = some bs) : p ∈ filePaths fs := by
  rw [lookupFile] at h
  obtain ⟨e, hfind, hsnd⟩ := Option.map_eq_some'.mp h
  have hmem := List.mem_of_find?_eq_some hfind
  have hp := List.find?_some hfind
  rw [decide_eq_true_eq] at hp
  exact hp ▸ List.mem_map.mpr ⟨e, hmem, rfl⟩

theorem lookupFile_setItem (fs : FS) (digest : Str) (v : Bytes) :
    lookupFile (setItem fs digest v) (comps digest) = some v := by
  rw [setItem, lookupFile]
  simp

theorem filePaths_setItem (fs : FS) (digest : Str) (v : Bytes) :
    filePaths (setItem fs digest v)
      = comps digest :: (fs.files.filter (fun e => decide (e.1 ≠ comps digest))).map Prod.fst := by
  rw [setItem, filePaths]
  rfl

/-- C3: after `set(key, value)`, `get(key)` recovers the original value for
any value codec whose decode is a left inverse of its encode. -/
theorem c3_set_get_roundtrip {Val : Type} (encV : Val → Bytes)
    (decV : Bytes → Except Unit Val) (hdec : ∀ v, decV (encV v) = .ok v)
    (fs : FS) (digest : Str) (v : Val) :
    getItem decV (setItem fs digest (encV v)) digest = .ok v := by
  have hmem : comps digest ∈ filePaths (setItem fs digest (encV v)) := by
    rw [filePaths_setItem]
    exact List.mem_cons_self _ _
  have hex : existsPath (setItem fs digest (encV v)) (comps digest) = true :=
    (existsPath_iff _ _).mpr (Or.inr (Or.inl hmem))
  rw [getItem]
  simp only [hex, if_true, lookupFile_setItem, hdec]

/-- Witness for C3 on the identity codec, an empty tree and the digest abcd. -/
theorem c3_set_get_roundtrip_witness :
    (∀ v : Bytes, Except.ok (ε := Unit) v = Except.ok v) ∧
      getItem (fun bs => Except.ok (ε := Unit) bs)
        (setItem initFS (['a','b','c','d']) ((fun v : Bytes => v) [1, 2, 3]))
        (['a','b','c','d'])
        = .ok [1, 2, 3] :=
  ⟨fun _ => rfl,
    c3_set_get_roundtrip (fun v : Bytes => v) (fun bs => Except.ok bs)
      (fun _ => rfl) initFS (['a','b','c','d']) [1, 2, 3]⟩

/-- C5: `get` fails with `NotFound` exactly when no regular file sits at the
cache path, and otherwise returns the codec's decode of the file's full
content, propagating a decode failure as `decodeFailed`.  The hypothesis
`comps digest ∉ fs.dirs` excludes a directory sitting at the cache path,
which cannot arise when all digests share the key encoder's fixed length
(cf. `c10_no_alias`). -/
theorem c5_get_semantics {Val : Type} (decV : Bytes → Except Unit Val)
    (fs : FS) (digest : Str) (hdir : comps digest ∉ fs.dirs) :
    (getItem decV fs digest = .error .notFound
      ↔ lookupFile fs (comps digest) = none)
  ∧ (∀ bs, lookupFile fs (comps digest) = some bs →
      getItem decV fs digest
        = match decV bs with
          | .ok v => .ok v
          | .error _ => .error .decodeFailed) := by
  constructor
  · cases hlk : lookupFile fs (comps digest) with
    | none =>
      have hex : existsPath fs (comps digest) = false :=
        existsPath_eq_false _ _ (comps_ne_nil digest)
          ((lookupFile_eq_none _ _).mp hlk) hdir
      rw [getItem]
      simp [hex]
    | some bs =>
      have hex : existsPath fs (comps digest) = true :=
        (existsPath_iff _ _).mpr (Or.inr (Or.inl (lookupFile_some_mem hlk)))
      rw [getItem]
      simp only [hex, if_true, hlk]
      constructor
      · intro h
        cases hd : decV bs with
        | ok v => rw [hd] at h; cases h
        | error e => rw [hd] at h; cases h
      · intro h
        cases h
  · intro bs hlk
    have hex : existsPath fs (comps digest) = true :=
      (existsPath_iff _ _).mpr (Or.inr (Or.inl (lookupFile_some_mem hlk)))
    rw [getItem]
    simp only [hex, if_true, hlk]

/-- Witness for C5 on a one-file tree whose content the codec rejects. -/
theorem c5_get_semantics_witness :
    (comps (['a','b','c','d']) ∉ (FS.mk [(comps (['a','b','c','d']), [7])] [[['a','b']]]).dirs)
  ∧ getItem (fun _ => Except.error (α := Bytes) ())
      (FS.mk [(comps (['a','b','c','d']), [7])] [[['a','b']]]) (['a','b','c','d'])
      = .error .decodeFailed := by
  have hdir : comps (['a','b','c','d'])
      ∉ (FS.mk [(comps (['a','b','c','d']), [7])] [[['a','b']]]).dirs := by decide
  refine ⟨hdir, ?_⟩
  have h := (c5_get_semantics (fun _ => Except.error (α := Bytes) ())
    (FS.mk [(comps (['a','b','c','d']), [7])] [[['a','b']]]) (['a','b','c','d']) hdir).2
    [7] (by decide)
  exact h

theorem pruneUp_ok_files : ∀ (rd : List Str) (fs fs' : FS),
    pruneUp fs rd = .ok fs' → fs'.files = fs.files := by
  intro rd
  induction rd with
  | nil =>
    intro fs fs' h
    cases h
    rfl
  | cons x rest ih =>
    intro fs fs' h
    rw [pruneUp] at h
    cases hld : listdir fs ((x :: rest).reverse) with
    | error e => rw [hld] at h; cases h
    | ok l =>
      rw [hld] at h
      simp only [] at h
      by_cases hl : l = []
      · rw [if_pos hl] at h
        exact ih (rmdirFS fs ((x :: rest).reverse)) fs' h
      · rw [if_neg hl] at h
        cases h
        rfl

theorem pruneUp_ok_dirs_sub : ∀ (rd : List Str) (fs fs' : FS),
    pruneUp fs rd = .ok fs' → ∀ d ∈ fs'.dirs, d ∈ fs.dirs := by
  intro rd
  induction rd with
  | nil =>
    intro fs fs' h
    cases h
    exact fun d hd => hd
  | cons x rest ih =>
    intro fs fs' h
    rw [pruneUp] at h
    cases hld : listdir fs ((x :: rest).reverse) with
    | error e => rw [hld] at h; cases h
    | ok l =>
      rw [hld] at h
      simp only [] at h
      by_cases hl : l = []
      · rw [if_pos hl] at h
        intro d hd
        have := ih _ _ h d hd
        rw [rmdirFS] at this
        exact (List.mem_filter.mp this).1
      · rw [if_neg hl] at h
        cases h
        exact fun d hd => hd

theorem not_mem_filePaths_filter (fs : FS) (p : FPath) :
    p ∉ (fs.files.filter (fun e => decide (e.1 ≠ p))).map Prod.fst := by
  intro h
  obtain ⟨e, he, hfst⟩ := List.mem_map.mp h
  have h2 := (List.mem_filter.mp he).2
  rw [decide_eq_true_eq, hfst] at h2
  exact h2 rfl

theorem delItem_ok_parts {fs fs' : FS} {digest : Str}
    (h : delItem fs digest = .ok fs') :
    fs'.files = fs.files.filter (fun e => decide (e.1 ≠ comps digest))
    ∧ ∀ d ∈ fs'.dirs, d ∈ fs.dirs := by
  rw [delItem] at h
  split at h
  · split at h
    · rw [prune] at h
      refine ⟨?_, fun d hd => ?_⟩
      · exact pruneUp_ok_files _
          (FS.mk (fs.files.filter (fun e => decide (e.1 ≠ comps digest))) fs.dirs) fs' h
      · exact pruneUp_ok_dirs_sub _
          (FS.mk (fs.files.filter (fun e => decide (e.1 ≠ comps digest))) fs.dirs) fs' h d hd
    · cases h
  · cases h

/-- C6: a key whose cache path holds no file and no directory is absent
(`contains` false, `get` raises `NotFound`); after a successful delete the key
is absent and a second delete raises `NotFound`.  The hypothesis
`comps digest ∉ fs.dirs` excludes a directory aliasing the cache path, which
cannot arise under the key encoder's fixed digest length (cf.
`c10_no_alias`). -/
theorem c6_absent_delete {Val : Type} (decV : Bytes → Except Unit Val)
    (fs fs' : FS) (digest : Str) :
    ((comps digest ∉ filePaths fs ∧ comps digest ∉ fs.dirs) →
      containsKey fs digest = false
        ∧ getItem decV fs digest = .error .notFound)
  ∧ (delItem fs digest = .ok fs' → comps digest ∉ fs.dirs →
      containsKey fs' digest = false
        ∧ getItem decV fs' digest = .error .notFound
        ∧ delItem fs' digest = .error .notFound) := by
  constructor
  · rintro ⟨hf, hd⟩
    have hex : existsPath fs (comps digest) = false :=
      existsPath_eq_false _ _ (comps_ne_nil digest) hf hd
    refine ⟨hex, ?_⟩
    rw [getItem]
    simp [hex]
  · intro hdel hd
    obtain ⟨hfiles, hdirs⟩ := delItem_ok_parts hdel
    have hf' : comps digest ∉ filePaths fs' := by
      rw [filePaths, hfiles]
      exact not_mem_filePaths_filter fs (comps digest)
    have hd' : comps digest ∉ fs'.dirs := fun hmem => hd (hdirs _ hmem)
    have hex : existsPath fs' (comps digest) = false :=
      existsPath_eq_false _ _ (comps_ne_nil digest) hf' hd'
    refine ⟨hex, ?_, ?_⟩
    · rw [getItem]
      simp [hex]
    · rw [delItem]
      simp [hex]

/-- Witness for C6: an unset key on a one-file tree, and deleting that
tree's only entry. -/
theorem c6_absent_delete_witness :
    (containsKey (FS.mk [(comps ['a','b','c','d'], [7])] [[['a','b']]]) ['x','y'] = false
      ∧ getItem (fun bs => Except.ok (ε := Unit) bs)
          (FS.mk [(comps ['a','b','c','d'], [7])] [[['a','b']]]) ['x','y']
        = .error .notFound)
  ∧ (containsKey (FS.mk [] []) ['a','b','c','d'] = false
      ∧ getItem (fun bs => Except.ok (ε := Unit) bs) (FS.mk [] []) ['a','b','c','d']
          = .error .notFound
      ∧ delItem (FS.mk [] []) ['a','b','c','d'] = .error .notFound) := by
  constructor
  · exact (c6_absent_delete (fun bs => Except.ok (ε := Unit) bs)
      (FS.mk [(comps ['a','b','c','d'], [7])] [[['a','b']]]) (FS.mk [] []) ['x','y']).1
      ⟨by decide, by decide⟩
  · exact (c6_absent_delete (fun bs => Except.ok (ε := Unit) bs)
      (FS.mk [(comps ['a','b','c','d'], [7])] [[['a','b']]]) (FS.mk [] []) ['a','b','c','d']).2
      (by rfl) (by decide)

/-- C9: `clear` removes the whole subtree (best-effort) and recreates an
empty root: afterwards there are no files, no directories, iteration yields
nothing and the size is 0. -/
theorem c9_clear (fs : FS) :
    filePaths (clearFS fs) = [] ∧ (clearFS fs).dirs = []
      ∧ iterKeys (clearFS fs) = [] ∧ sizeFS (clearFS fs) = 0 :=
  ⟨rfl, rfl, rfl, rfl⟩

theorem reverse_cons_eq {d : FPath} {x : Str} {rest : List Str}
    (hx : d.reverse = x :: rest) : (x :: rest).reverse = d := by
  rw [← hx, List.reverse_reverse]

theorem exists_reverse_cons {d : FPath} (hd : d ≠ []) :
    ∃ x rest, d.reverse = x :: rest := by
  cases hr : d.reverse with
  | nil =>
    exfalso
    apply hd
    simpa using congrArg List.reverse hr
  | cons x rest => exact ⟨x, rest, rfl⟩

theorem prune_nil (fs : FS) : prune fs [] = .ok fs := rfl

/-- One step of the pruning loop, in terms of the directory being visited. -/
theorem prune_step (fs : FS) (d : FPath) (hd : d ≠ []) :
    prune fs d =
      match listdir fs d with
      | .error e => .error e
      | .ok l => if l = [] then prune (rmdirFS fs d) d.dropLast else .ok fs := by
  obtain ⟨x, rest, hx⟩ := exists_reverse_cons hd
  have hrr := reverse_cons_eq hx
  have hdrop : d.dropLast = rest.reverse := by
    rw [← hrr, List.reverse_cons, List.dropLast_concat]
  rw [prune, hx, pruneUp, hrr, prune, hdrop, List.reverse_reverse]

/-- C7 counterexample: in the tolerated-race state where the directory the
walk stands on has already been removed (here: the shard directory ab is
gone), the pruning loop does not complete without error — `os.listdir`
raises `FileNotFoundError`. -/
theorem c7_counterexample :
    ([['a','b']] : FPath) ∉ (FS.mk [] [] : FS).dirs
  ∧ prune (FS.mk [] []) [['a','b']] = .error Err.dirMissing :=
  ⟨List.not_mem_nil _, rfl⟩

/-- C7 amended: the pruning loop treats a no-longer-empty directory (and
reaching the root) as a non-error outcome, stopping there with the tree
unchanged; but a directory on the walked-up path that has already been
removed makes `os.listdir` raise `FileNotFoundError` — that race is not
tolerated by the code. -/
theorem c7_amended (fs : FS) (d : FPath)
    (h : d = [] ∨ (d ∈ fs.dirs ∧ childrenOf fs d ≠ [])) :
    prune fs d = .ok fs
  ∧ ∀ e : FPath, e ≠ [] → e ∉ fs.dirs → e ∉ filePaths fs →
      prune fs e = .error Err.dirMissing := by
  constructor
  · by_cases hnil : d = []
    · rw [hnil, prune_nil]
    · rcases h with rfl | ⟨hd, hch⟩
      · exact absurd rfl hnil
      · rw [prune_step fs d hnil, listdir, if_pos (Or.inr hd)]
        simp only [if_neg hch]
  · intro e he hed hef
    rw [prune_step fs e he, listdir, if_neg, if_neg hef]
    rintro (h1 | h1)
    · exact he h1
    · exact hed h1

/-- Witness for C7 amended: a shard directory holding one file is visited by
the walk and left alone. -/
theorem c7_amended_witness :
    (([['a','b']] : FPath) = []
      ∨ (([['a','b']] : FPath) ∈ (FS.mk [([['a','b'],['c','d']], [0])] [[['a','b']]]).dirs
          ∧ childrenOf (FS.mk [([['a','b'],['c','d']], [0])] [[['a','b']]]) [['a','b']] ≠ []))
  ∧ (prune (FS.mk [([['a','b'],['c','d']], [0])] [[['a','b']]]) [['a','b']]
        = .ok (FS.mk [([['a','b'],['c','d']], [0])] [[['a','b']]])
    ∧ ∀ e : FPath, e ≠ []
        → e ∉ (FS.mk [([['a','b'],['c','d']], [0])] [[['a','b']]]).dirs
        → e ∉ filePaths (FS.mk [([['a','b'],['c','d']], [0])] [[['a','b']]])
        → prune (FS.mk [([['a','b'],['c','d']], [0])] [[['a','b']]]) e
            = .error Err.dirMissing) :=
  ⟨Or.inr ⟨by decide, by decide⟩,
    c7_amended (FS.mk [([['a','b'],['c','d']], [0])] [[['a','b']]]) [['a','b']]
      (Or.inr ⟨by decide, by decide⟩)⟩

theorem leadsTo_trans {a b c : FPath} (h1 : leadsTo a b) (h2 : leadsTo b c) :
    leadsTo a c := by
  obtain ⟨t, rfl⟩ := h1
  obtain ⟨u, rfl⟩ := h2
  exact ⟨t ++ u, List.append_assoc _ _ _⟩

theorem leadsTo_nil_right {e : FPath} (h : leadsTo e []) : e = [] := by
  obtain ⟨t, ht⟩ := h
  exact (List.append_eq_nil.mp ht.symm).1

theorem leadsTo_dropLast_of_ne {a d : FPath} (h : leadsTo a d) (hne : a ≠ d) :
    leadsTo a d.dropLast := by
  obtain ⟨u, rfl⟩ := h
  have hu : u ≠ [] := fun e => hne (by simp [e])
  obtain ⟨u', z, hz⟩ : ∃ u' z, u = u' ++ [z] :=
    ⟨u.dropLast, u.getLast hu, (List.dropLast_append_getLast hu).symm⟩
  subst hz
  rw [← List.append_assoc, List.dropLast_concat]
  exact ⟨u', rfl⟩

theorem strictIn_of_leadsTo {e d q : FPath} (h1 : leadsTo e d) (h2 : strictIn d q) :
    strictIn e q := by
  obtain ⟨t, rfl⟩ := h1
  obtain ⟨u, hu, rfl⟩ := h2
  exact ⟨t ++ u, by simp [hu], by rw [List.append_assoc]⟩

theorem strictIn_concat (d : FPath) (n : Str) : strictIn d (d ++ [n]) :=
  ⟨[n], by simp, rfl⟩

theorem strictIn_length {d q : FPath} (h : strictIn d q) : d.length < q.length := by
  obtain ⟨t, ht, rfl⟩ := h
  have := List.length_pos.mpr ht
  rw [List.length_append]
  omega

theorem HasEntry_congr {fs1 fs2 : FS} (h : fs1.files = fs2.files) (d : FPath) :
    HasEntry fs1 d ↔ HasEntry fs2 d := by
  rw [HasEntry, HasEntry, filePaths, filePaths, h]

theorem mem_childrenOf {fs : FS} {d c : FPath} :
    c ∈ childrenOf fs d
      ↔ (c ∈ filePaths fs ∨ c ∈ fs.dirs) ∧ c ≠ [] ∧ c.dropLast = d := by
  rw [childrenOf, List.mem_filter, List.mem_append]
  simp

theorem child_shape {d c : FPath} (hne : c ≠ []) (hdl : c.dropLast = d) :
    ∃ n, c = d ++ [n] :=
  ⟨c.getLast hne, by rw [← hdl, List.dropLast_append_getLast]⟩

theorem childrenOf_ne_nil {fs : FS} {d q : FPath} (hanc : Hanc fs)
    (hq : q ∈ filePaths fs) (hs : strictIn d q) : childrenOf fs d ≠ [] := by
  obtain ⟨t, ht, rfl⟩ := hs
  intro hch
  cases t with
  | nil => exact ht rfl
  | cons n t' =>
    have hc : (d ++ n :: t').take (d.length + 1) = d ++ [n] := by
      rw [List.take_append, List.take_succ_cons, List.take_zero]
    have hmem : d ++ [n] ∈ filePaths fs ∨ d ++ [n] ∈ fs.dirs := by
      by_cases ht' : t' = []
      · subst ht'
        exact Or.inl hq
      · refine Or.inr ?_
        have hlt : d.length + 1 < (d ++ n :: t').length := by
          have := List.length_pos.mpr ht'
          rw [List.length_append, List.length_cons]
          omega
        have := hanc _ hq (d.length + 1) hlt (by omega)
        rwa [hc] at this
    have hmem2 : d ++ [n] ∈ childrenOf fs d :=
      mem_childrenOf.mpr ⟨hmem, by simp, List.dropLast_concat⟩
    rw [hch] at hmem2
    exact List.not_mem_nil _ hmem2

theorem not_HasEntry_of_childrenOf_nil {fs : FS} {d : FPath} (hanc : Hanc fs)
    (hch : childrenOf fs d = []) : ¬ HasEntry fs d := by
  rintro ⟨q, hq, hs⟩
  exact childrenOf_ne_nil hanc hq hs hch

theorem listdir_ok {fs : FS} {d : FPath} {l : List FPath}
    (h : listdir fs d = .ok l) : l = childrenOf fs d ∧ (d = [] ∨ d ∈ fs.dirs) := by
  rw [listdir] at h
  split at h
  · cases h
    exact ⟨rfl, by assumption⟩
  · split at h
    · cases h
    · cases h

theorem Hanc_rmdir {fs : FS} {d : FPath} (hanc : Hanc fs)
    (hch : childrenOf fs d = []) : Hanc (rmdirFS fs d) := by
  intro q hq k hk hk0
  have h1 : q.take k ∈ fs.dirs := hanc q hq k hk hk0
  have h2 : q.take k ≠ d := by
    intro he
    apply childrenOf_ne_nil hanc hq ?_ hch
    rw [← he]
    refine ⟨q.drop k, ?_, (List.take_append_drop k q).symm⟩
    rw [Ne, List.drop_eq_nil_iff]
    omega
  rw [rmdirFS]
  exact List.mem_filter.mpr ⟨h1, by simpa using h2⟩

theorem mem_dirs_rmdir {fs : FS} {d e : FPath} :
    e ∈ (rmdirFS fs d).dirs ↔ e ∈ fs.dirs ∧ e ≠ d := by
  rw [rmdirFS, List.mem_filter]
  simp

/-- Directories that still hold an entry in their subtree survive the
pruning walk. -/
theorem pruneUp_keeps_covered :
    ∀ (rd : List Str) (fs fs' : FS), Hanc fs → pruneUp fs rd = .ok fs' →
      ∀ e ∈ fs.dirs, HasEntry fs e → e ∈ fs'.dirs := by
  intro rd
  induction rd with
  | nil =>
    intro fs fs' _ h
    cases h
    exact fun e he _ => he
  | cons x rest ih =>
    intro fs fs' hanc h e he hcov
    rw [pruneUp] at h
    split at h
    next err heq => cases h
    next l heq =>
      obtain ⟨rfl, -⟩ := listdir_ok heq
      by_cases hl : childrenOf fs ((x :: rest).reverse) = []
      · rw [if_pos hl] at h
        have hnd : e ≠ (x :: rest).reverse := by
          rintro rfl
          exact not_HasEntry_of_childrenOf_nil hanc hl hcov
        refine ih (rmdirFS fs ((x :: rest).reverse)) fs' (Hanc_rmdir hanc hl) h e
          (mem_dirs_rmdir.mpr ⟨he, hnd⟩) ?_
        exact (HasEntry_congr rfl e).mpr hcov
      · rw [if_neg hl] at h
        cases h
        exact he

/-- Ancestors of the walk's starting point whose subtrees hold no entry are
removed by the pruning walk, provided every entry-free directory lies on the
walked path. -/
theorem pruneUp_removes_filefree :
    ∀ (rd : List Str) (fs fs' : FS),
      (∀ x ∈ fs.dirs, ¬ HasEntry fs x → leadsTo x rd.reverse) →
      pruneUp fs rd = .ok fs' →
      ∀ e, e ≠ [] → leadsTo e rd.reverse → ¬ HasEntry fs e → e ∉ fs'.dirs := by
  intro rd
  induction rd with
  | nil =>
    intro fs fs' _ _ e he hlead _
    exact absurd (leadsTo_nil_right hlead) he
  | cons x rest ih =>
    intro fs fs' hinv h e he hlead hfree
    rw [pruneUp] at h
    split at h
    next err heq => cases h
    next l heq =>
      obtain ⟨rfl, -⟩ := listdir_ok heq
      have hdrop : ((x :: rest).reverse : FPath).dropLast = rest.reverse := by
        rw [List.reverse_cons, List.dropLast_concat]
      by_cases hl : childrenOf fs ((x :: rest).reverse) = []
      · rw [if_pos hl] at h
        by_cases hed : e = (x :: rest).reverse
        · intro hmem
          have hsub := pruneUp_ok_dirs_sub rest (rmdirFS fs ((x :: rest).reverse)) fs' h e hmem
          exact (mem_dirs_rmdir.mp hsub).2 hed
        · refine ih (rmdirFS fs ((x :: rest).reverse)) fs' ?_ h e he ?_ ?_
          · intro y hy hyfree
            obtain ⟨hy1, hy2⟩ := mem_dirs_rmdir.mp hy
            have := hinv y hy1 (fun hc => hyfree ((HasEntry_congr rfl y).mpr hc))
            rw [← hdrop]
            exact leadsTo_dropLast_of_ne this hy2
          · rw [← hdrop]
            exact leadsTo_dropLast_of_ne hlead hed
          · exact fun hc => hfree ((HasEntry_congr rfl e).mp hc)
      · rw [if_neg hl] at h
        cases h
        intro hmem
        obtain ⟨c, hc⟩ := List.exists_mem_of_ne_nil _ hl
        obtain ⟨hcmem, hcne, hcdl⟩ := mem_childrenOf.mp hc
        obtain ⟨n, rfl⟩ := child_shape hcne hcdl
        rcases hcmem with hcf | hcd
        · exact hfree ⟨_, hcf, strictIn_of_leadsTo hlead (strictIn_concat _ n)⟩
        · by_cases hcfree : HasEntry fs ((x :: rest).reverse ++ [n])
          · obtain ⟨q, hq, hsq⟩ := hcfree
            exact hfree ⟨q, hq,
              strictIn_of_leadsTo hlead
                (strictIn_of_leadsTo ⟨[n], rfl⟩ hsq)⟩
          · have := hinv _ hcd hcfree
            have hlen := leadsTo_length this
            simp only [List.length_append, List.length_cons, List.length_nil] at hlen
            omega

theorem mem_filePaths_filter {fs : FS} {p q : FPath} :
    q ∈ (fs.files.filter (fun e => decide (e.1 ≠ p))).map Prod.fst
      ↔ q ∈ filePaths fs ∧ q ≠ p := by
  constructor
  · intro h
    obtain ⟨e, he, rfl⟩ := List.mem_map.mp h
    have h2 := List.mem_filter.mp he
    exact ⟨List.mem_map.mpr ⟨e, h2.1, rfl⟩, by simpa using h2.2⟩
  · rintro ⟨hq, hne⟩
    obtain ⟨e, he, rfl⟩ := List.mem_map.mp hq
    exact List.mem_map.mpr ⟨e, List.mem_filter.mpr ⟨he, by simpa using hne⟩, rfl⟩

theorem strictIn_leadsTo_dropLast {a q : FPath} (h : strictIn a q) :
    leadsTo a q.dropLast := by
  obtain ⟨t, ht, rfl⟩ := h
  rw [List.dropLast_append, if_neg (by simpa using ht)]
  exact ⟨t.dropLast, rfl⟩

theorem prune_keeps_covered (fs fs' : FS) (d : FPath) (hanc : Hanc fs)
    (h : prune fs d = .ok fs') : ∀ e ∈ fs.dirs, HasEntry fs e → e ∈ fs'.dirs := by
  rw [prune] at h
  exact pruneUp_keeps_covered d.reverse fs fs' hanc h

theorem prune_removes_filefree (fs fs' : FS) (d : FPath)
    (hinv : ∀ x ∈ fs.dirs, ¬ HasEntry fs x → leadsTo x d)
    (h : prune fs d = .ok fs') :
    ∀ e, e ≠ [] → leadsTo e d → ¬ HasEntry fs e → e ∉ fs'.dirs := by
  rw [prune] at h
  have hmain := pruneUp_removes_filefree d.reverse fs fs'
    (fun x hx hxf => by rw [List.reverse_reverse]; exact hinv x hx hxf) h
  intro e he hl hf
  exact hmain e he (by rwa [List.reverse_reverse]) hf

/-- C4: directory hygiene of delete.  After a successful delete, (i) an
ancestor directory of the deleted entry's former path that no longer holds
any entry anywhere in its subtree does not remain, and (ii) every directory
that still holds an entry in its subtree (e.g. the shared ancestors of a
surviving sibling) remains.  The hypotheses are the spec's Directory Tree
invariants for the pre-state: every directory on a live cache path exists
(`Hanc`) and every directory holds some entry in its subtree. -/
theorem c4_dir_hygiene (fs fs' : FS) (digest : Str)
    (hanc : Hanc fs)
    (hI : ∀ x ∈ fs.dirs, HasEntry fs x)
    (hdel : delItem fs digest = .ok fs') :
    (∀ e, e ≠ [] → leadsTo e (comps digest).dropLast → ¬ HasEntry fs' e →
        e ∉ fs'.dirs)
  ∧ (∀ e ∈ fs.dirs, HasEntry fs' e → e ∈ fs'.dirs) := by
  obtain ⟨hfiles', -⟩ := delItem_ok_parts hdel
  rw [delItem] at hdel
  split at hdel
  · split at hdel
    · have hanc1 : Hanc (FS.mk
          (fs.files.filter (fun e => decide (e.1 ≠ comps digest))) fs.dirs) := by
        intro q hq k hk hk0
        exact hanc q (mem_filePaths_filter.mp hq).1 k hk hk0
      have hfc : ∀ e, HasEntry fs' e ↔ HasEntry (FS.mk
          (fs.files.filter (fun e => decide (e.1 ≠ comps digest))) fs.dirs) e :=
        fun e => HasEntry_congr hfiles' e
      constructor
      · intro e he hlead hfree
        refine prune_removes_filefree _ fs' (comps digest).dropLast ?_ hdel e he hlead
          (fun hc => hfree ((hfc e).mpr hc))
        intro y hy hyfree
        rcases hI y hy with ⟨q, hq, hsq⟩
        by_cases hqp : q = comps digest
        · subst hqp
          exact strictIn_leadsTo_dropLast hsq
        · exact absurd ⟨q, mem_filePaths_filter.mpr ⟨hq, hqp⟩, hsq⟩ hyfree
      · intro e he hcov
        exact prune_keeps_covered _ fs' (comps digest).dropLast hanc1 hdel e he
          ((hfc e).mp hcov)
    · cases hdel
  · cases hdel

/-- Witness for C4: deleting one of two sibling entries under the shard ab;
the shared shard directory survives. -/
theorem c4_dir_hygiene_witness :
    Hanc (FS.mk [(comps ['a','b','c','d'], [0]), (comps ['a','b','c','e'], [1])]
        [[['a','b']]])
  ∧ (∀ x ∈ (FS.mk [(comps ['a','b','c','d'], [0]), (comps ['a','b','c','e'], [1])]
        [[['a','b']]] : FS).dirs,
      HasEntry (FS.mk [(comps ['a','b','c','d'], [0]), (comps ['a','b','c','e'], [1])]
        [[['a','b']]]) x)
  ∧ ((∀ e, e ≠ [] → leadsTo e (comps ['a','b','c','d']).dropLast →
        ¬ HasEntry (FS.mk [(comps ['a','b','c','e'], [1])] [[['a','b']]]) e →
        e ∉ (FS.mk [(comps ['a','b','c','e'], [1])] [[['a','b']]] : FS).dirs)
    ∧ (∀ e ∈ (FS.mk [(comps ['a','b','c','d'], [0]), (comps ['a','b','c','e'], [1])]
          [[['a','b']]] : FS).dirs,
        HasEntry (FS.mk [(comps ['a','b','c','e'], [1])] [[['a','b']]]) e →
        e ∈ (FS.mk [(comps ['a','b','c','e'], [1])] [[['a','b']]] : FS).dirs)) := by
  refine ⟨?_, ?_, ?_⟩
  · decide
  · decide
  · exact c4_dir_hygiene
      (FS.mk [(comps ['a','b','c','d'], [0]), (comps ['a','b','c','e'], [1])]
        [[['a','b']]])
      (FS.mk [(comps ['a','b','c','e'], [1])] [[['a','b']]])
      ['a','b','c','d'] (by decide) (by decide) (by rfl)

theorem applyOp_invariant (op : Op) (fs : FS)
    (hnd : (filePaths fs).Nodup) (hcp : ∀ p ∈ filePaths fs, comps p.flatten = p) :
    (filePaths (applyOp fs op)).Nodup
      ∧ ∀ p ∈ filePaths (applyOp fs op), comps p.flatten = p := by
  have hsub : ∀ d : FPath,
      List.Sublist ((fs.files.filter (fun e => decide (e.1 ≠ d))).map Prod.fst)
        (filePaths fs) :=
    fun d => List.Sublist.map _ (List.filter_sublist _)
  cases op with
  | set d v =>
    constructor
    · rw [applyOp, filePaths_setItem, List.nodup_cons]
      exact ⟨not_mem_filePaths_filter fs (comps d), (hsub (comps d)).nodup hnd⟩
    · intro p hp
      rw [applyOp, filePaths_setItem] at hp
      rcases List.mem_cons.mp hp with rfl | hp
      · rw [comps_flatten]
      · exact hcp p (mem_filePaths_filter.mp hp).1
  | del d =>
    cases hdel : delItem fs d with
    | ok fs' =>
      obtain ⟨hfiles, -⟩ := delItem_ok_parts hdel
      have hfp : filePaths (applyOp fs (Op.del d))
          = (fs.files.filter (fun e => decide (e.1 ≠ comps d))).map Prod.fst := by
        simp only [applyOp, hdel]
        rw [filePaths, hfiles]
      constructor
      · rw [hfp]
        exact (hsub (comps d)).nodup hnd
      · intro p hp
        rw [hfp] at hp
        exact hcp p (mem_filePaths_filter.mp hp).1
    | error err =>
      simp only [applyOp, hdel]
      exact ⟨hnd, hcp⟩

theorem runOps_invariant_aux :
    ∀ (ops : List Op) (fs : FS),
      (filePaths fs).Nodup → (∀ p ∈ filePaths fs, comps p.flatten = p) →
      (filePaths (runOps fs ops)).Nodup
        ∧ ∀ p ∈ filePaths (runOps fs ops), comps p.flatten = p := by
  intro ops
  induction ops with
  | nil => exact fun fs h1 h2 => ⟨h1, h2⟩
  | cons op t ih =>
    intro fs h1 h2
    obtain ⟨h1', h2'⟩ := applyOp_invariant op fs h1 h2
    exact ih (applyOp fs op) h1' h2'

theorem runOps_invariant (ops : List Op) :
    (filePaths (runOps initFS ops)).Nodup
      ∧ ∀ p ∈ filePaths (runOps initFS ops), comps p.flatten = p :=
  runOps_invariant_aux ops initFS List.nodup_nil (fun p hp => absurd hp (List.not_mem_nil p))

/-- C8: after any finite sequence of set/delete operations from the empty
tree, iteration yields exactly the digest strings of the entries currently
present — one per regular file, each exactly once, membership agreeing with
presence of the file at the digest's cache path. -/
theorem c8_iterate_exact (ops : List Op) :
    (iterKeys (runOps initFS ops)).Nodup
  ∧ (iterKeys (runOps initFS ops)).length = sizeFS (runOps initFS ops)
  ∧ ∀ digest : Str, (digest ∈ iterKeys (runOps initFS ops)
      ↔ comps digest ∈ filePaths (runOps initFS ops)) := by
  obtain ⟨hnd, hcp⟩ := runOps_invariant ops
  refine ⟨?_, ?_, ?_⟩
  · rw [iterKeys]
    refine List.Nodup.map_on ?_ hnd
    intro x hx y hy hxy
    rw [← hcp x hx, ← hcp y hy, hxy]
  · rw [iterKeys, sizeFS, List.length_map]
  · intro digest
    constructor
    · intro h
      obtain ⟨p, hp, rfl⟩ := List.mem_map.mp h
      rw [hcp p hp]
      exact hp
    · intro h
      rw [iterKeys]
      exact List.mem_map.mpr ⟨comps digest, h, comps_flatten digest⟩

end FileHashCache
